import Mathlib

/-!
# Shallow embedding of `src/main.rs` (zapret_domains_selector)

The program is an interactive terminal checklist.  `run_app` builds a catalog
of `FileEntry` values from the files of the `lists` directory and the lines of
`lists/selected.txt`, then runs an event loop over key presses that moves a
cursor, toggles the `selected` flag of real entries, and exits on the
"SAVE LIST" / "CANCEL" sentinels or Ctrl+C, writing the selected names back to
`lists/selected.txt` only on save.

File I/O is modelled at line granularity: the contents of
`lists/selected.txt` are a `List String` of its lines (Rust reads it with
`content.lines()` and writes it with one `writeln!` per name).  The directory
listing is a `List String` of file names.  The event loop is a step function
`sysStep` on a state carrying the entries, the cursor index, the file lines
and an exit marker; once the loop has broken (`exited = some _`) the state is
frozen.
-/

/-- `struct FileEntry { name: String, selected: bool }` from `main.rs`. -/
structure FileEntry where
  name : String
  selected : Bool
deriving Repr, DecidableEq

/-- The entry pushed as `FileEntry { name: "SAVE LIST", selected: false }`. -/
def saveSentinel : FileEntry := ⟨"SAVE LIST", false⟩

/-- The entry pushed as `FileEntry { name: "CANCEL", selected: false }`. -/
def cancelSentinel : FileEntry := ⟨"CANCEL", false⟩

/-- The filter of `run_app`:
`name.starts_with("list-") && name.ends_with(".txt") && name != "list-ultimate.txt"`.
Rust's `starts_with` / `ends_with` test a byte prefix / suffix; on UTF-8
strings that is exactly a prefix / suffix of the character sequence, stated
here on `String.data` (Lean's own `String.startsWith` is byte-level
well-founded recursion, which the kernel cannot evaluate on literals). -/
def isCandidate (name : String) : Bool :=
  "list-".data.isPrefixOf name.data && ".txt".data.isSuffixOf name.data
    && name != "list-ultimate.txt"

/-- The comparison of `entries.sort_by(|a, b| a.name.cmp(&b.name))`: order
entries by their name.  (Rust compares the UTF-8 bytes; Lean's `String` order
compares the code points, and the two orders agree on UTF-8.) -/
def entryLe : FileEntry → FileEntry → Prop := fun a b => a.name ≤ b.name

instance : DecidableRel entryLe := fun a b => String.decidableLE a.name b.name

instance : IsTotal FileEntry entryLe := ⟨fun a b => le_total a.name b.name⟩

instance : IsTrans FileEntry entryLe := ⟨fun _ _ _ h h' => le_trans h h'⟩

/-- Catalog construction of `run_app`: keep the directory entries accepted by
the filter, pair each name with `selected_files.contains(&name)`, sort by
name, and push the two sentinels.  `List.insertionSort` is a stable sort by
`entryLe`, as is Rust's `sort_by` with `a.name.cmp(&b.name)`. -/
def buildEntries (dirFiles selectedFiles : List String) : List FileEntry :=
  let real : List FileEntry :=
    (dirFiles.filter isCandidate).map fun name =>
      { name := name, selected := selectedFiles.contains name }
  List.insertionSort entryLe real ++ [saveSentinel, cancelSentinel]

/-- The sorted real part of the catalog, before the sentinels are pushed. -/
def realEntries (dirFiles selectedFiles : List String) : List FileEntry :=
  List.insertionSort entryLe
    ((dirFiles.filter isCandidate).map fun name =>
      { name := name, selected := selectedFiles.contains name })

/-- The candidate names of the directory in catalog (sorted) order. -/
def sortedNames (dirFiles : List String) : List String :=
  List.insertionSort (· ≤ ·) (dirFiles.filter isCandidate)

/-- The lines written on save: `for entry in &entries { if entry.selected
{ writeln!(file, "{}", entry.name)?; } }` — the names of the selected
entries, in catalog order, replacing the previous file contents. -/
def saveLines (entries : List FileEntry) : List String :=
  (entries.filter fun e => e.selected).map fun e => e.name

/-- The key inputs the match arms of the event loop distinguish (press kind
only; non-press events fall into the wildcard arm, i.e. `other`). -/
inductive Key where
  | up
  | down
  | select
  | ctrlC
  | other
deriving Repr, DecidableEq

/-- How the event loop was left: save (`break 'main Ok(())` after the write),
cancel, or Ctrl+C. -/
inductive ExitKind where
  | saved
  | cancelled
  | forced
deriving Repr, DecidableEq

/-- The mutable state of one `run_app` session: the catalog, the cursor
(`current_index`), the lines of `lists/selected.txt` on disk, and whether the
loop has broken. -/
structure SysState where
  entries : List FileEntry
  currentIndex : Nat
  file : List String
  exited : Option ExitKind
deriving Repr, DecidableEq

/-- `entries[current_index].selected = !entries[current_index].selected` as a
list operation (out of range: unchanged; `run_app` only toggles at an index
below `entries.len() - 2`, which is in range). -/
def toggleAt : List FileEntry → Nat → List FileEntry
  | [], _ => []
  | e :: es, 0 => ⟨e.name, !e.selected⟩ :: es
  | e :: es, i + 1 => e :: toggleAt es i

/-- Default used to read `entries[current_index]`; the loop keeps
`current_index < entries.len()`, so the default is never consulted on
reachable states. -/
def defaultEntry : FileEntry := ⟨"", false⟩

/-- One iteration of the event loop of `run_app` on one key event.  The
subtractions `entries.len() - 1` and `entries.len() - 2` are `usize`
subtractions in Rust; the catalog always has at least the two sentinels, so
truncated `Nat` subtraction agrees.  After a `break` the loop is gone, so a
state with `exited = some _` absorbs further keys. -/
def sysStep (s : SysState) (k : Key) : SysState :=
  match s.exited with
  | some _ => s
  | none =>
    match k with
    | .up =>
      if 0 < s.currentIndex then { s with currentIndex := s.currentIndex - 1 } else s
    | .down =>
      if s.currentIndex < s.entries.length - 1 then
        { s with currentIndex := s.currentIndex + 1 }
      else s
    | .select =>
      if s.entries.length - 2 ≤ s.currentIndex then
        match (s.entries.getD s.currentIndex defaultEntry).name with
        | "SAVE LIST" => { s with file := saveLines s.entries, exited := some .saved }
        | "CANCEL" => { s with exited := some .cancelled }
        | _ => s
      else
        { s with entries := toggleAt s.entries s.currentIndex }
    | .ctrlC => { s with exited := some .forced }
    | .other => s

/-- Folding the event loop over a sequence of key events. -/
def runKeys (s : SysState) : List Key → SysState
  | [] => s
  | k :: ks => runKeys (sysStep s k) ks

/-- The state at the top of the event loop: catalog built from the directory
listing and the prior lines of `lists/selected.txt`, `current_index = 0`,
file untouched. -/
def initState (dirFiles priorFile : List String) : SysState :=
  { entries := buildEntries dirFiles priorFile
    currentIndex := 0
    file := priorFile
    exited := none }

/-- Display name used by `draw_screen`: the sentinels render under localized
labels, real entries under their file name. -/
def displayName (e : FileEntry) : String :=
  if e.name = "SAVE LIST" then "СОХРАНИТЬ СПИСОК"
  else if e.name = "CANCEL" then "ОТМЕНА"
  else e.name

/-- One line of `draw_screen`: `format!("{} [{}] {}", cursor, mark, name)`
(the line under the cursor is additionally rendered in reverse video). -/
def renderLine (e : FileEntry) (isCur : Bool) : String :=
  (if isCur then ">" else " ") ++ " [" ++ (if e.selected then "*" else " ") ++ "] "
    ++ displayName e

/-- The textual frame of `draw_screen`: the header then one line per entry.
`draw_screen` takes the entries by immutable borrow (`&[FileEntry]`) and the
index by value, so it is a pure function of them; the `clear_screen` flag
only selects between terminal control sequences (full clear vs move-to-origin)
and does not change the frame lines. -/
def drawScreen (entries : List FileEntry) (currentIndex : Nat) : List String :=
  "Используйте ↑↓ для навигации, ПРОБЕЛ или ENTER для выбора, ENTER на СОХРАНИТЬ/ОТМЕНА для завершения"
    :: (entries.enum.map fun p => renderLine p.2 (p.1 == currentIndex))

/-- The terminal-control operations `main` performs around `run_app`. -/
inductive TermOp where
  | enableRaw
  | enterAlt
  | hideCursor
  | showCursor
  | leaveAlt
  | disableRaw
deriving Repr, DecidableEq

/-- `fn main`: `enable_raw_mode()?`, `execute!(stdout, EnterAlternateScreen,
Hide)?`, then `let result = run_app(..)` (captured, not propagated with `?`),
then `execute!(stdout, Show, LeaveAlternateScreen)?`,
`disable_raw_mode()?`, and finally `result` is returned.  `f` gives the
outcome of each terminal operation and `runResult` the outcome of `run_app`;
the returned list is the sequence of terminal operations attempted. -/
def runMain (f : TermOp → Except String Unit) (runResult : Except String Unit) :
    List TermOp × Except String Unit :=
  match f .enableRaw with
  | .error e => ([.enableRaw], .error e)
  | .ok _ =>
  match f .enterAlt with
  | .error e => ([.enableRaw, .enterAlt], .error e)
  | .ok _ =>
  match f .hideCursor with
  | .error e => ([.enableRaw, .enterAlt, .hideCursor], .error e)
  | .ok _ =>
  match f .showCursor with
  | .error e => ([.enableRaw, .enterAlt, .hideCursor, .showCursor], .error e)
  | .ok _ =>
  match f .leaveAlt with
  | .error e => ([.enableRaw, .enterAlt, .hideCursor, .showCursor, .leaveAlt], .error e)
  | .ok _ =>
  match f .disableRaw with
  | .error e =>
      ([.enableRaw, .enterAlt, .hideCursor, .showCursor, .leaveAlt, .disableRaw], .error e)
  | .ok _ =>
      ([.enableRaw, .enterAlt, .hideCursor, .showCursor, .leaveAlt, .disableRaw], runResult)

/-! ## Helper lemmas about `toggleAt` -/

theorem toggleAt_map_name (l : List FileEntry) (i : Nat) :
    (toggleAt l i).map FileEntry.name = l.map FileEntry.name := by
  induction l generalizing i with
  | nil => cases i <;> rfl
  | cons e es ih =>
    cases i with
    | zero => rfl
    | succ j => simp [toggleAt, ih]

theorem toggleAt_length (l : List FileEntry) (i : Nat) :
    (toggleAt l i).length = l.length := by
  have h := congrArg List.length (toggleAt_map_name l i)
  simpa using h

theorem toggleAt_append_left (l₁ l₂ : List FileEntry) (i : Nat) (h : i < l₁.length) :
    toggleAt (l₁ ++ l₂) i = toggleAt l₁ i ++ l₂ := by
  induction l₁ generalizing i with
  | nil => simp at h
  | cons e es ih =>
    cases i with
    | zero => rfl
    | succ j => simp [toggleAt, ih j (by simpa using h)]

theorem toggleAt_getD_ne (l : List FileEntry) (i j : Nat) (d : FileEntry) (h : j ≠ i) :
    (toggleAt l i).getD j d = l.getD j d := by
  induction l generalizing i j with
  | nil => cases i <;> rfl
  | cons e es ih =>
    cases i with
    | zero =>
      cases j with
      | zero => exact absurd rfl h
      | succ j' => rfl
    | succ i' =>
      cases j with
      | zero => rfl
      | succ j' => simpa [toggleAt] using ih i' j' (fun hh => h (by omega))

theorem toggleAt_getD_eq (l : List FileEntry) (i : Nat) (d : FileEntry) (h : i < l.length) :
    (toggleAt l i).getD i d = ⟨(l.getD i d).name, !(l.getD i d).selected⟩ := by
  induction l generalizing i with
  | nil => simp at h
  | cons e es ih =>
    cases i with
    | zero => rfl
    | succ i' => simpa [toggleAt] using ih i' (by simpa using h)

theorem toggleAt_toggleAt (l : List FileEntry) (i : Nat) :
    toggleAt (toggleAt l i) i = l := by
  induction l generalizing i with
  | nil => cases i <;> rfl
  | cons e es ih =>
    cases i with
    | zero => simp [toggleAt]
    | succ j => simp [toggleAt, ih]

/-! ## Case analyses of one event-loop step -/

theorem sysStep_entries_cases (s : SysState) (k : Key) :
    (sysStep s k).entries = s.entries ∨
      ((sysStep s k).entries = toggleAt s.entries s.currentIndex ∧
        s.currentIndex < s.entries.length - 2) := by
  rcases s with ⟨es, idx, fl, ex⟩
  cases ex
  · cases k
    · left; simp only [sysStep]; split <;> rfl
    · left; simp only [sysStep]; split <;> rfl
    · simp only [sysStep]
      split
      · left; split <;> rfl
      · right; exact ⟨rfl, by omega⟩
    · left; rfl
    · left; rfl
  · left; rfl

theorem sysStep_cursor_cases (s : SysState) (k : Key) :
    (sysStep s k).currentIndex = s.currentIndex ∨
      ((sysStep s k).currentIndex = s.currentIndex - 1 ∧ 0 < s.currentIndex) ∨
      ((sysStep s k).currentIndex = s.currentIndex + 1 ∧
        s.currentIndex < s.entries.length - 1) := by
  rcases s with ⟨es, idx, fl, ex⟩
  cases ex
  · cases k
    · simp only [sysStep]; split
      · right; left; exact ⟨rfl, by assumption⟩
      · left; rfl
    · simp only [sysStep]; split
      · right; right; exact ⟨rfl, by assumption⟩
      · left; rfl
    · simp only [sysStep]; split
      · split <;> (left; rfl)
      · left; rfl
    · left; rfl
    · left; rfl
  · left; rfl

theorem sysStep_file_cases (s : SysState) (k : Key) :
    (sysStep s k).file = s.file ∨
      ((sysStep s k).exited = some ExitKind.saved ∧
        (sysStep s k).file = saveLines s.entries) := by
  rcases s with ⟨es, idx, fl, ex⟩
  cases ex
  · cases k
    · left; simp only [sysStep]; split <;> rfl
    · left; simp only [sysStep]; split <;> rfl
    · simp only [sysStep]
      split
      · split
        · right; exact ⟨rfl, rfl⟩
        · left; rfl
        · left; rfl
      · left; rfl
    · left; rfl
    · left; rfl
  · left; rfl

theorem sysStep_frozen (s : SysState) (k : Key) (e : ExitKind) (h : s.exited = some e) :
    sysStep s k = s := by
  rcases s with ⟨es, idx, fl, ex⟩
  cases ex
  · simp at h
  · rfl

theorem runKeys_frozen (s : SysState) (ks : List Key) (e : ExitKind) (h : s.exited = some e) :
    runKeys s ks = s := by
  induction ks with
  | nil => rfl
  | cons k ks ih => rw [runKeys, sysStep_frozen s k e h, ih]

theorem sysStep_map_name (s : SysState) (k : Key) :
    (sysStep s k).entries.map FileEntry.name = s.entries.map FileEntry.name := by
  rcases sysStep_entries_cases s k with h | ⟨h, _⟩
  · rw [h]
  · rw [h, toggleAt_map_name]

theorem sysStep_entries_length (s : SysState) (k : Key) :
    (sysStep s k).entries.length = s.entries.length := by
  have h := congrArg List.length (sysStep_map_name s k)
  simpa using h

theorem runKeys_map_name (s : SysState) (ks : List Key) :
    (runKeys s ks).entries.map FileEntry.name = s.entries.map FileEntry.name := by
  induction ks generalizing s with
  | nil => rfl
  | cons k ks ih => rw [runKeys, ih, sysStep_map_name]

/-! ## Normal form of the built catalog -/

theorem buildEntries_decomp (files sel : List String) :
    buildEntries files sel = realEntries files sel ++ [saveSentinel, cancelSentinel] := rfl

theorem realEntries_eq_map (files sel : List String) :
    realEntries files sel
      = (sortedNames files).map fun n => ⟨n, sel.contains n⟩ := by
  unfold realEntries sortedNames
  exact (List.map_insertionSort (· ≤ ·) entryLe
    (fun n => (⟨n, sel.contains n⟩ : FileEntry))
    (files.filter isCandidate) (fun a _ b _ => Iff.rfl)).symm

theorem realEntries_map_name (files sel : List String) :
    (realEntries files sel).map FileEntry.name = sortedNames files := by
  rw [realEntries_eq_map, List.map_map,
    show (FileEntry.name ∘ fun n => ({ name := n, selected := sel.contains n } : FileEntry))
        = id from rfl,
    List.map_id]

theorem mem_sortedNames (files : List String) (n : String) (h : n ∈ sortedNames files) :
    isCandidate n = true := by
  unfold sortedNames at h
  rw [List.mem_insertionSort] at h
  exact (List.mem_filter.mp h).2

/-- Shape invariant of the catalog along the event loop: a real part whose
names are the sorted candidate names, then the two sentinels with their
`selected` flags still `false`. -/
def Shaped (files : List String) (es : List FileEntry) : Prop :=
  ∃ real, es = real ++ [saveSentinel, cancelSentinel] ∧
    real.map FileEntry.name = sortedNames files

theorem shaped_build (files sel : List String) :
    Shaped files (buildEntries files sel) :=
  ⟨realEntries files sel, buildEntries_decomp files sel, realEntries_map_name files sel⟩

theorem shaped_step (files : List String) (s : SysState) (k : Key)
    (h : Shaped files s.entries) : Shaped files (sysStep s k).entries := by
  rcases sysStep_entries_cases s k with he | ⟨he, hlt⟩
  · rwa [he]
  · rcases h with ⟨real, hre, hmap⟩
    have hlen : s.entries.length = real.length + 2 := by rw [hre]; simp
    have hidx : s.currentIndex < real.length := by omega
    refine ⟨toggleAt real s.currentIndex, ?_, ?_⟩
    · rw [he, hre, toggleAt_append_left _ _ _ hidx]
    · rw [toggleAt_map_name, hmap]

theorem shaped_runKeys (files : List String) (s : SysState) (ks : List Key)
    (h : Shaped files s.entries) : Shaped files (runKeys s ks).entries := by
  induction ks generalizing s with
  | nil => exact h
  | cons k ks ih => exact ih (sysStep s k) (shaped_step files s k h)

theorem map_eq_self_of_mem {α : Type _} (l : List α) (f : α → α)
    (h : ∀ x ∈ l, f x = x) : l.map f = l := by
  induction l with
  | nil => rfl
  | cons x xs ih =>
    rw [List.map_cons, h x (List.mem_cons_self x xs),
      ih fun y hy => h y (List.mem_cons_of_mem x hy)]

/-- The sentinels are never selected in a shaped catalog, so they contribute
nothing to the saved lines. -/
theorem saveLines_shaped (es real : List FileEntry)
    (hre : es = real ++ [saveSentinel, cancelSentinel]) :
    saveLines es = saveLines real := by
  rw [hre]
  unfold saveLines
  rw [List.filter_append]
  simp [saveSentinel, cancelSentinel]

theorem saveLines_sub_names (l : List FileEntry) (n : String) (h : n ∈ saveLines l) :
    n ∈ l.map FileEntry.name := by
  unfold saveLines at h
  rcases List.mem_map.mp h with ⟨e, he, rfl⟩
  exact List.mem_map.mpr ⟨e, (List.mem_filter.mp he).1, rfl⟩

/-- Rebuilding the catalog from any file whose lines have the same membership
as the saved lines of a shaped catalog state reproduces that state exactly. -/
theorem rebuild_eq (files : List String) (es : List FileEntry)
    (hsh : Shaped files es) (hnd : (files.filter isCandidate).Nodup)
    (l : List String) (hl : ∀ n, n ∈ l ↔ n ∈ saveLines es) :
    buildEntries files l = es := by
  rcases hsh with ⟨real, hre, hmap⟩
  have hnds : (sortedNames files).Nodup := by
    unfold sortedNames
    exact (List.perm_insertionSort (· ≤ ·) (files.filter isCandidate)).nodup_iff.mpr hnd
  have hndr : (real.map FileEntry.name).Nodup := by rw [hmap]; exact hnds
  have hsl : saveLines es = saveLines real := saveLines_shaped es real hre
  have hmem : ∀ n, n ∈ l ↔ ∃ e, e ∈ real ∧ e.selected = true ∧ e.name = n := by
    intro n
    rw [hl n, hsl]
    unfold saveLines
    simp only [List.mem_map, List.mem_filter, and_assoc]
  have hsel : ∀ e ∈ real, l.contains e.name = e.selected := by
    intro e he
    cases hse : e.selected with
    | true =>
      have hin : e.name ∈ l := (hmem e.name).mpr ⟨e, he, hse, rfl⟩
      simpa using hin
    | false =>
      have hout : e.name ∉ l := by
        intro hin
        rcases (hmem e.name).mp hin with ⟨e', he', hse', hname⟩
        have hee : e' = e := List.inj_on_of_nodup_map hndr he' he hname
        rw [hee, hse] at hse'
        exact Bool.false_ne_true hse'
      simpa using hout
  rw [buildEntries_decomp, realEntries_eq_map, hre, ← hmap, List.map_map]
  congr 1
  refine map_eq_self_of_mem real _ fun e he => ?_
  show (⟨e.name, l.contains e.name⟩ : FileEntry) = e
  have h1 := hsel e he
  cases e with
  | mk nm sl =>
    dsimp only at h1 ⊢
    rw [h1]

theorem sysStep_cursor_lt (s : SysState) (k : Key)
    (h : s.currentIndex < s.entries.length) :
    (sysStep s k).currentIndex < (sysStep s k).entries.length := by
  have hlen := sysStep_entries_length s k
  rcases sysStep_cursor_cases s k with hc | ⟨hc, h0⟩ | ⟨hc, h1⟩ <;> omega

theorem runKeys_cursor_lt (s : SysState) (ks : List Key) :
    s.currentIndex < s.entries.length →
      (runKeys s ks).currentIndex < (runKeys s ks).entries.length := by
  induction ks generalizing s with
  | nil => exact fun h => h
  | cons k ks ih => exact fun h => ih (sysStep s k) (sysStep_cursor_lt s k h)

theorem sysStep_up_at_zero (s : SysState) (h : s.currentIndex = 0) :
    sysStep s Key.up = s := by
  rcases s with ⟨es, idx, fl, ex⟩
  have h' : idx = 0 := h
  subst h'
  cases ex
  · simp [sysStep]
  · rfl

theorem sysStep_down_at_last (s : SysState) (h : s.currentIndex = s.entries.length - 1) :
    sysStep s Key.down = s := by
  rcases s with ⟨es, idx, fl, ex⟩
  have h' : idx = es.length - 1 := h
  subst h'
  cases ex
  · simp [sysStep]
  · rfl

theorem sysStep_ctrlC_file (s : SysState) : (sysStep s Key.ctrlC).file = s.file := by
  rcases s with ⟨es, idx, fl, ex⟩
  cases ex <;> rfl

theorem runKeys_file_of_ne_saved (s : SysState) (ks : List Key) :
    (runKeys s ks).exited ≠ some ExitKind.saved → (runKeys s ks).file = s.file := by
  induction ks generalizing s with
  | nil => exact fun _ => rfl
  | cons k ks ih =>
    intro h
    rw [runKeys] at h ⊢
    rcases sysStep_file_cases s k with hf | ⟨he, hf⟩
    · rw [ih (sysStep s k) h, hf]
    · exfalso
      apply h
      rw [runKeys_frozen (sysStep s k) ks ExitKind.saved he, he]

theorem sysStep_saved_name (s : SysState) (hrun : s.exited = none)
    (h : (sysStep s Key.select).exited = some ExitKind.saved) :
    (s.entries.getD s.currentIndex defaultEntry).name = "SAVE LIST" := by
  rcases s with ⟨es, idx, fl, ex⟩
  have hex : ex = none := hrun
  subst hex
  simp only [sysStep] at h
  split at h
  · split at h
    · next heq => exact heq
    · simp at h
    · simp at h
  · simp at h

theorem sysStep_toggle (s : SysState) (hrun : s.exited = none)
    (hidx : s.currentIndex < s.entries.length - 2) :
    sysStep s Key.select = { s with entries := toggleAt s.entries s.currentIndex } := by
  rcases s with ⟨es, idx, fl, ex⟩
  have hex : ex = none := hrun
  subst hex
  have hidx' : idx < es.length - 2 := hidx
  simp only [sysStep]
  rw [if_neg (by omega)]

/-! ## The claims -/

/-- Claim C1: for every directory listing and every persisted selection, the
built catalog consists of exactly one entry per file accepted by the filter
(fixed prefix, fixed extension, not the reserved aggregate name), sorted
lexicographically by name, followed by the save sentinel and then the cancel
sentinel; hence a listing with N matching files yields exactly N + 2 entries
with the sentinels last, in fixed order. -/
theorem catalog_build_spec (files sel : List String) :
    (buildEntries files sel).length = (files.filter isCandidate).length + 2 ∧
    buildEntries files sel = realEntries files sel ++ [saveSentinel, cancelSentinel] ∧
    ((realEntries files sel).map FileEntry.name).Perm (files.filter isCandidate) ∧
    List.Sorted (· ≤ ·) ((realEntries files sel).map FileEntry.name) := by
  refine ⟨?_, buildEntries_decomp files sel, ?_, ?_⟩
  · rw [buildEntries_decomp]
    simp [realEntries]
  · rw [realEntries_map_name]
    unfold sortedNames
    exact List.perm_insertionSort _ _
  · rw [realEntries_map_name]
    unfold sortedNames
    exact List.sorted_insertionSort _ _

/-- Claim C2: for every catalog whose cursor is in bounds (as it is from the
start, `current_index = 0`, onwards) and every finite sequence of key events,
the cursor stays within `[0, len-1]` after each transition; an Up press at
index 0 and a Down press at the last index leave the state unchanged
(clamped, not wrapped). -/
theorem cursor_bounds (s : SysState) (ks : List Key)
    (h : s.currentIndex < s.entries.length) :
    (runKeys s ks).currentIndex < (runKeys s ks).entries.length ∧
    (s.currentIndex = 0 → sysStep s Key.up = s) ∧
    (s.currentIndex = s.entries.length - 1 → sysStep s Key.down = s) :=
  ⟨runKeys_cursor_lt s ks h, fun h0 => sysStep_up_at_zero s h0,
    fun hl => sysStep_down_at_last s hl⟩

theorem cursor_bounds_witness :
    (runKeys ⟨[saveSentinel, cancelSentinel], 0, [], none⟩
        [Key.down, Key.down, Key.up]).currentIndex
      < (runKeys ⟨[saveSentinel, cancelSentinel], 0, [], none⟩
        [Key.down, Key.down, Key.up]).entries.length ∧
    sysStep ⟨[saveSentinel, cancelSentinel], 0, [], none⟩ Key.up
      = ⟨[saveSentinel, cancelSentinel], 0, [], none⟩ ∧
    sysStep ⟨[saveSentinel, cancelSentinel], 1, [], none⟩ Key.down
      = ⟨[saveSentinel, cancelSentinel], 1, [], none⟩ :=
  ⟨(cursor_bounds ⟨[saveSentinel, cancelSentinel], 0, [], none⟩
      [Key.down, Key.down, Key.up] (by decide)).1,
    (cursor_bounds ⟨[saveSentinel, cancelSentinel], 0, [], none⟩ [] (by decide)).2.1 rfl,
    (cursor_bounds ⟨[saveSentinel, cancelSentinel], 1, [], none⟩ [] (by decide)).2.2 rfl⟩

/-- Claim C3: for every directory of distinct files and every subset of the
real entries — reached by any key sequence from the built catalog — saving
and then rebuilding the catalog from the same directory contents and any file
whose lines have the same membership as the just-written selection (so in any
order) yields exactly the same catalog, hence exactly the same selected
set. -/
theorem roundtrip_spec (files sel0 : List String)
    (hnd : (files.filter isCandidate).Nodup) (ks : List Key) (l : List String)
    (hl : ∀ n, n ∈ l ↔ n ∈ saveLines (runKeys (initState files sel0) ks).entries) :
    buildEntries files l = (runKeys (initState files sel0) ks).entries :=
  rebuild_eq files _ (shaped_runKeys files _ ks (shaped_build files sel0)) hnd l hl

theorem roundtrip_spec_witness :
    buildEntries ["list-b.txt", "list-a.txt"]
        (saveLines (runKeys (initState ["list-b.txt", "list-a.txt"] [])
          [Key.select]).entries)
      = (runKeys (initState ["list-b.txt", "list-a.txt"] []) [Key.select]).entries :=
  roundtrip_spec ["list-b.txt", "list-a.txt"] [] (by decide) [Key.select] _
    (fun n => Iff.rfl)

/-- Claim C4: with the cursor on the save sentinel, a select key press writes
to the selection file exactly the names of the selected entries, one per
line, in catalog order, replacing the old contents wholesale (the new file
does not depend on the old one); saving with an empty selected set writes a
zero-line file, and a catalog rebuilt from an empty file has no entry
selected. -/
theorem save_writes_selected (s : SysState) (hrun : s.exited = none)
    (hidx : s.entries.length - 2 ≤ s.currentIndex)
    (hname : (s.entries.getD s.currentIndex defaultEntry).name = "SAVE LIST") :
    (sysStep s Key.select).file
        = (s.entries.filter fun e => e.selected).map (fun e => e.name) ∧
    (sysStep s Key.select).exited = some ExitKind.saved ∧
    ((∀ e ∈ s.entries, e.selected = false) → (sysStep s Key.select).file = []) ∧
    (∀ files : List String, ∀ e ∈ buildEntries files [], e.selected = false) := by
  rcases s with ⟨es, idx, fl, ex⟩
  have hex : ex = none := hrun
  subst hex
  have hidx' : es.length - 2 ≤ idx := hidx
  have hname' : (es.getD idx defaultEntry).name = "SAVE LIST" := hname
  have hstep : sysStep ⟨es, idx, fl, none⟩ Key.select
      = ⟨es, idx, saveLines es, some ExitKind.saved⟩ := by
    simp only [sysStep]
    rw [if_pos hidx']
    split
    · rfl
    · next heq => rw [hname'] at heq; exact absurd heq (by decide)
    · next hne1 hne2 => exact absurd hname' (by exact hne1)
  refine ⟨by rw [hstep]; exact rfl, by rw [hstep], ?_, ?_⟩
  · intro hall
    rw [hstep]
    show saveLines es = []
    unfold saveLines
    rw [List.filter_eq_nil_iff.mpr (fun e he => by rw [hall e he]; exact Bool.false_ne_true)]
    rfl
  · intro files e he
    rw [buildEntries_decomp, realEntries_eq_map] at he
    rcases List.mem_append.mp he with hm | hm
    · rcases List.mem_map.mp hm with ⟨n, _, rfl⟩
      rfl
    · simp only [List.mem_cons, List.not_mem_nil, or_false] at hm
      rcases hm with rfl | rfl <;> rfl

theorem save_writes_selected_witness :
    (sysStep ⟨[⟨"list-a.txt", true⟩, ⟨"list-b.txt", false⟩, saveSentinel, cancelSentinel],
        2, ["stale-line"], none⟩ Key.select).file = ["list-a.txt"] ∧
    (sysStep ⟨[⟨"list-a.txt", true⟩, ⟨"list-b.txt", false⟩, saveSentinel, cancelSentinel],
        2, ["stale-line"], none⟩ Key.select).exited = some ExitKind.saved ∧
    ((∀ e ∈ [⟨"list-a.txt", true⟩, ⟨"list-b.txt", false⟩, saveSentinel, cancelSentinel],
        FileEntry.selected e = false) →
      (sysStep ⟨[⟨"list-a.txt", true⟩, ⟨"list-b.txt", false⟩, saveSentinel, cancelSentinel],
        2, ["stale-line"], none⟩ Key.select).file = []) ∧
    (∀ files : List String, ∀ e ∈ buildEntries files [], e.selected = false) :=
  save_writes_selected
    ⟨[⟨"list-a.txt", true⟩, ⟨"list-b.txt", false⟩, saveSentinel, cancelSentinel],
      2, ["stale-line"], none⟩ rfl (by decide) rfl

/-- Claim C5: whatever `run_app` returns — success after save, success after
cancel or Ctrl+C, or a propagated error — `main` still performs the full
teardown (show cursor, leave the alternate screen, disable raw mode) after it
and returns `run_app`'s result; an error return never skips restoration. -/
theorem terminal_restore (f : TermOp → Except String Unit) (r : Except String Unit)
    (hf : ∀ op, f op = .ok ()) :
    (runMain f r).1
        = [TermOp.enableRaw, TermOp.enterAlt, TermOp.hideCursor,
            TermOp.showCursor, TermOp.leaveAlt, TermOp.disableRaw] ∧
    (runMain f r).2 = r := by
  unfold runMain
  rw [hf .enableRaw, hf .enterAlt, hf .hideCursor, hf .showCursor, hf .leaveAlt,
    hf .disableRaw]
  exact ⟨rfl, rfl⟩

theorem terminal_restore_witness :
    (runMain (fun _ => Except.ok ()) (Except.error "boom")).1
        = [TermOp.enableRaw, TermOp.enterAlt, TermOp.hideCursor,
            TermOp.showCursor, TermOp.leaveAlt, TermOp.disableRaw] ∧
    (runMain (fun _ => Except.ok ()) (Except.error "boom")).2 = Except.error "boom" :=
  terminal_restore (fun _ => Except.ok ()) (Except.error "boom") (fun _ => rfl)

/-- Claim C6: a run that does not end in the save exit — in particular one
ended by the cancel sentinel or by Ctrl+C — leaves the selection file's
contents exactly as they were; a Ctrl+C step never touches the file, and a
select press with the cursor on the cancel sentinel never touches the
file, at any cursor position. -/
theorem no_write_on_cancel_or_quit (s : SysState) (ks : List Key)
    (h : (runKeys s ks).exited ≠ some ExitKind.saved) :
    (runKeys s ks).file = s.file ∧
    (sysStep s Key.ctrlC).file = s.file ∧
    ((s.entries.getD s.currentIndex defaultEntry).name = "CANCEL" →
      (sysStep s Key.select).file = s.file) := by
  refine ⟨runKeys_file_of_ne_saved s ks h, sysStep_ctrlC_file s, ?_⟩
  intro hname
  cases hex : s.exited with
  | some e => rw [sysStep_frozen s Key.select e hex]
  | none =>
    rcases sysStep_file_cases s Key.select with hf | ⟨he, hf⟩
    · exact hf
    · exfalso
      have hs := sysStep_saved_name s hex he
      rw [hname] at hs
      exact absurd hs (by decide)

theorem no_write_on_cancel_or_quit_witness :
    (runKeys ⟨[⟨"list-a.txt", true⟩, saveSentinel, cancelSentinel], 2, ["keep-me"], none⟩
        [Key.select]).file = ["keep-me"] ∧
    (sysStep ⟨[⟨"list-a.txt", true⟩, saveSentinel, cancelSentinel], 2, ["keep-me"], none⟩
        Key.ctrlC).file = ["keep-me"] ∧
    (sysStep ⟨[⟨"list-a.txt", true⟩, saveSentinel, cancelSentinel], 2, ["keep-me"], none⟩
        Key.select).file = ["keep-me"] :=
  ⟨(no_write_on_cancel_or_quit
      ⟨[⟨"list-a.txt", true⟩, saveSentinel, cancelSentinel], 2, ["keep-me"], none⟩
      [Key.select] (by decide)).1,
    (no_write_on_cancel_or_quit
      ⟨[⟨"list-a.txt", true⟩, saveSentinel, cancelSentinel], 2, ["keep-me"], none⟩
      [Key.select] (by decide)).2.1,
    (no_write_on_cancel_or_quit
      ⟨[⟨"list-a.txt", true⟩, saveSentinel, cancelSentinel], 2, ["keep-me"], none⟩
      [Key.select] (by decide)).2.2 rfl⟩

/-- Claim C7: an entry of the built real part has `selected = true` iff its
name appears verbatim among the lines of the persisted selection; lines that
match no discovered candidate filename are silently ignored — appending any
such lines to the selection leaves the built catalog unchanged and raises no
error (the construction is total). -/
theorem selection_merge (files sel : List String) :
    (∀ e ∈ realEntries files sel, e.selected = true ↔ e.name ∈ sel) ∧
    (∀ junk : List String, (∀ j ∈ junk, j ∉ files.filter isCandidate) →
      buildEntries files (sel ++ junk) = buildEntries files sel) := by
  constructor
  · intro e he
    rw [realEntries_eq_map] at he
    rcases List.mem_map.mp he with ⟨n, _, rfl⟩
    simp
  · intro junk hj
    rw [buildEntries_decomp, buildEntries_decomp]
    congr 1
    rw [realEntries_eq_map, realEntries_eq_map]
    refine List.map_congr_left fun n hn => ?_
    have hmemf : n ∈ files.filter isCandidate := by
      unfold sortedNames at hn
      exact (List.mem_insertionSort _).mp hn
    have hnj : n ∉ junk := fun hin => hj n hin hmemf
    have hc : (sel ++ junk).contains n = sel.contains n := by
      simp [List.mem_append, hnj]
    rw [hc]

theorem selection_merge_witness :
    buildEntries ["list-a.txt", "list-b.txt"] (["list-b.txt"] ++ ["garbage line"])
      = buildEntries ["list-a.txt", "list-b.txt"] ["list-b.txt"] :=
  (selection_merge ["list-a.txt", "list-b.txt"] ["list-b.txt"]).2 ["garbage line"]
    (by decide)

/-- Claim C8: with the cursor on a real entry (index < len - 2), a select key
press flips exactly that entry's `selected` flag — cursor, file, exit marker,
entry count and every other entry are unchanged, and the toggled entry keeps
its name — and a second select press restores the original catalog. -/
theorem toggle_local (s : SysState) (hrun : s.exited = none)
    (hidx : s.currentIndex < s.entries.length - 2) :
    (sysStep s Key.select).currentIndex = s.currentIndex ∧
    (sysStep s Key.select).file = s.file ∧
    (sysStep s Key.select).exited = none ∧
    (sysStep s Key.select).entries.length = s.entries.length ∧
    (∀ j, j ≠ s.currentIndex →
      (sysStep s Key.select).entries.getD j defaultEntry
        = s.entries.getD j defaultEntry) ∧
    ((sysStep s Key.select).entries.getD s.currentIndex defaultEntry).name
      = (s.entries.getD s.currentIndex defaultEntry).name ∧
    ((sysStep s Key.select).entries.getD s.currentIndex defaultEntry).selected
      = !(s.entries.getD s.currentIndex defaultEntry).selected ∧
    (sysStep (sysStep s Key.select) Key.select).entries = s.entries := by
  have h1 := sysStep_toggle s hrun hidx
  have hlt : s.currentIndex < s.entries.length := by omega
  have h2 := sysStep_toggle (sysStep s Key.select)
    (by rw [h1]; exact hrun)
    (by rw [h1]
        show s.currentIndex < (toggleAt s.entries s.currentIndex).length - 2
        rw [toggleAt_length]
        exact hidx)
  refine ⟨by rw [h1], by rw [h1], by rw [h1]; exact hrun, ?_, ?_, ?_, ?_, ?_⟩
  · rw [h1]
    show (toggleAt s.entries s.currentIndex).length = s.entries.length
    exact toggleAt_length _ _
  · intro j hj
    rw [h1]
    show (toggleAt s.entries s.currentIndex).getD j defaultEntry
      = s.entries.getD j defaultEntry
    exact toggleAt_getD_ne _ _ _ _ hj
  · rw [h1]
    show ((toggleAt s.entries s.currentIndex).getD s.currentIndex defaultEntry).name
      = (s.entries.getD s.currentIndex defaultEntry).name
    rw [toggleAt_getD_eq _ _ _ hlt]
  · rw [h1]
    show ((toggleAt s.entries s.currentIndex).getD s.currentIndex defaultEntry).selected
      = !(s.entries.getD s.currentIndex defaultEntry).selected
    rw [toggleAt_getD_eq _ _ _ hlt]
  · rw [h2, h1]
    show toggleAt (toggleAt s.entries s.currentIndex) s.currentIndex = s.entries
    exact toggleAt_toggleAt _ _

theorem toggle_local_witness :
    ((sysStep ⟨[⟨"list-a.txt", false⟩, ⟨"list-b.txt", true⟩, saveSentinel, cancelSentinel],
        0, [], none⟩ Key.select).entries.getD 0 defaultEntry).selected = true ∧
    (sysStep ⟨[⟨"list-a.txt", false⟩, ⟨"list-b.txt", true⟩, saveSentinel, cancelSentinel],
        0, [], none⟩ Key.select).entries.getD 1 defaultEntry = ⟨"list-b.txt", true⟩ ∧
    (sysStep (sysStep ⟨[⟨"list-a.txt", false⟩, ⟨"list-b.txt", true⟩, saveSentinel,
        cancelSentinel], 0, [], none⟩ Key.select) Key.select).entries
      = [⟨"list-a.txt", false⟩, ⟨"list-b.txt", true⟩, saveSentinel, cancelSentinel] :=
  ⟨(toggle_local ⟨[⟨"list-a.txt", false⟩, ⟨"list-b.txt", true⟩, saveSentinel,
      cancelSentinel], 0, [], none⟩ rfl (by decide)).2.2.2.2.2.2.1,
    (toggle_local ⟨[⟨"list-a.txt", false⟩, ⟨"list-b.txt", true⟩, saveSentinel,
      cancelSentinel], 0, [], none⟩ rfl (by decide)).2.2.2.2.1 1 (by decide),
    (toggle_local ⟨[⟨"list-a.txt", false⟩, ⟨"list-b.txt", true⟩, saveSentinel,
      cancelSentinel], 0, [], none⟩ rfl (by decide)).2.2.2.2.2.2.2⟩

/-- Claim C9: in every state reachable from the freshly built catalog, the
two action sentinels still occupy the last two positions with their
`selected` flags `false` — toggling never reaches them — and consequently
their names never occur in the saved selection lines. -/
theorem sentinel_invariant (files sel : List String) (ks : List Key) :
    (∃ real, (runKeys (initState files sel) ks).entries
        = real ++ [saveSentinel, cancelSentinel]) ∧
    "SAVE LIST" ∉ saveLines (runKeys (initState files sel) ks).entries ∧
    "CANCEL" ∉ saveLines (runKeys (initState files sel) ks).entries := by
  rcases shaped_runKeys files (initState files sel) ks (shaped_build files sel) with
    ⟨real, hre, hmap⟩
  refine ⟨⟨real, hre⟩, ?_, ?_⟩
  · intro hmem
    rw [saveLines_shaped _ real hre] at hmem
    have h1 := saveLines_sub_names real _ hmem
    rw [hmap] at h1
    exact absurd (mem_sortedNames files _ h1) (by decide)
  · intro hmem
    rw [saveLines_shaped _ real hre] at hmem
    have h1 := saveLines_sub_names real _ hmem
    rw [hmap] at h1
    exact absurd (mem_sortedNames files _ h1) (by decide)

/-- Claim C10: after the catalog is built, no event-loop transition changes
the number, the names or the order of the entries — the name sequence is
invariant under every key and every key sequence, so only the `selected`
flags and the cursor index ever change — and `draw_screen` is modelled as a
pure function of catalog and cursor (the source passes them by immutable
borrow), producing one header line plus exactly one line per entry. -/
theorem frame_invariant (s : SysState) (ks : List Key) :
    (runKeys s ks).entries.map FileEntry.name = s.entries.map FileEntry.name ∧
    (∀ k, (sysStep s k).entries.map FileEntry.name = s.entries.map FileEntry.name) ∧
    (∀ k, (sysStep s k).entries.length = s.entries.length) ∧
    (∀ i, (drawScreen s.entries i).length = s.entries.length + 1) := by
  refine ⟨runKeys_map_name s ks, fun k => sysStep_map_name s k,
    fun k => sysStep_entries_length s k, fun i => ?_⟩
  simp [drawScreen]
